import Mathlib

/-!
Verification of the qgis-workflow scripts (variants
`new-qgis-workflow-8-8-25.py` and `qgis-workflow-30-7-25.py`).

The development shallowly embeds the pure logic of the two scripts:
the job-ledger operations (`claim_next_job`, `mark_job_done`,
`build_job_list`), the main worker loop body, the group-key
classifier (`get_group_key`, both variants), the outline containment
filter (`clean_outline_layer_batch`), the blank-tile test
(`is_blank_tile` / `process_tile`) and the tile-count estimator
(`compute_total_tiles_wgs84`).  Filesystem state (the ledger file) is
modelled as a list of `filename,status` pairs, exactly the data the
Python code parses out of each line with `line.strip().split(",", 1)`.
-/

/-! ## Ledger model (JobCoordinator)

A ledger is the parsed content of `geojson_jobs.txt`: one
`(filename, status)` pair per line.  The three status constants are
taken verbatim from the configuration block of both scripts. -/

def JOB_STATUS_PENDING : String := "PENDING"

def JOB_STATUS_IN_PROGRESS : String := "IN_PROGRESS"

def JOB_STATUS_DONE : String := "DONE"

/-- One parsed ledger line: the text before the first comma and the text
after it (`line.strip().split(",", 1)`). -/
abbrev LedgerEntry := String × String

abbrev Ledger := List LedgerEntry

/-- `os.path.join(folder, fn)` in the non-degenerate POSIX case used by the
scripts: `folder` is a user-chosen directory name and `fn` a file basename. -/
def pathJoin (folder fn : String) : String := folder ++ "/" ++ fn

/-- Characters of a path after the last slash (helper for `basename`). -/
def basenameChars (cs : List Char) : List Char :=
  ((cs.reverse.takeWhile (fun c => c ≠ '/')).reverse)

/-- `os.path.basename`: the component after the last `/`. -/
def basename (s : String) : String := String.mk (basenameChars s.data)

/-- Core of `claim_next_job`: walk the parsed lines carrying the
`claimed_file` flag; the first `PENDING` line is rewritten to
`IN_PROGRESS`, every other line is kept as is. -/
def claimNext : Ledger → Option String → Ledger × Option String
  | [], claimed => ([], claimed)
  | (fn, status) :: rest, claimed =>
    if status = JOB_STATUS_PENDING ∧ claimed = none then
      let r := claimNext rest (some fn)
      ((fn, JOB_STATUS_IN_PROGRESS) :: r.1, r.2)
    else
      let r := claimNext rest claimed
      ((fn, status) :: r.1, r.2)

/-- `claim_next_job(main_folder)`: rewrite the ledger, then
`return os.path.join(main_folder, claimed_file) if claimed_file else None`.
Note the Python truthiness test: an empty claimed filename is reported as
`None` even though its line was rewritten. -/
def claim_next_job (folder : String) (ledger : Ledger) : Ledger × Option String :=
  let r := claimNext ledger none
  (r.1, match r.2 with
        | some fn => if fn = "" then none else some (pathJoin folder fn)
        | none => none)

/-- `mark_job_done(main_folder, filename)`: every line whose filename equals
`os.path.basename(filename)` is rewritten to `DONE`, the rest are kept. -/
def mark_job_done (ledger : Ledger) (filename : String) : Ledger :=
  ledger.map (fun e => if e.1 = basename filename then (e.1, JOB_STATUS_DONE) else e)

/-- `build_job_list`: one `PENDING` entry per discovered file basename, in
discovery order (the model starts from the list of basenames). -/
def build_job_list (files : List String) : Ledger :=
  files.map (fun fn => (fn, JOB_STATUS_PENDING))

/-- One iteration of the main worker loop of `run` (identical in both
variants): claim a job; if none, sleep and retry; otherwise run
`process_geojson` (whose outcome, success or swallowed failure, is the
`outcome` argument) and then unconditionally call `mark_job_done`. -/
def runLoopBody (folder : String) (ledger : Ledger) (outcome : Bool) : Ledger :=
  match claim_next_job folder ledger with
  | (l, none) => l
  | (l, some geojson_file) =>
    -- `process_geojson(geojson_file)` returns normally whatever happens
    -- (its body is one try/except/finally); `outcome` is discarded just as
    -- the loop discards the processing result.
    let _ := outcome
    mark_job_done l geojson_file

/-- Status recorded for `fn`: first matching line, like a reader scanning
the ledger file. -/
def statusOf (fn : String) : Ledger → Option String
  | [] => none
  | (fn', st) :: rest => if fn' = fn then some st else statusOf fn rest

/-! ### Basic lemmas about `claimNext` -/

theorem claimNext_cons (fn status : String) (rest : Ledger) (claimed : Option String) :
    claimNext ((fn, status) :: rest) claimed =
      if status = JOB_STATUS_PENDING ∧ claimed = none then
        ((fn, JOB_STATUS_IN_PROGRESS) :: (claimNext rest (some fn)).1,
          (claimNext rest (some fn)).2)
      else
        ((fn, status) :: (claimNext rest claimed).1, (claimNext rest claimed).2) := rfl

theorem claimNext_no_pending (ledger : Ledger)
    (h : ∀ e ∈ ledger, e.2 ≠ JOB_STATUS_PENDING) :
    claimNext ledger none = (ledger, none) := by
  induction ledger with
  | nil => rfl
  | cons e rest ih =>
    obtain ⟨fn, status⟩ := e
    have hst : status ≠ JOB_STATUS_PENDING := h (fn, status) (List.mem_cons_self _ _)
    have hrest := ih (fun e he => h e (List.mem_cons_of_mem _ he))
    rw [claimNext_cons, if_neg (fun hc => hst hc.1), hrest]

theorem claimNext_some_claimed (ledger : Ledger) (fn : String) :
    claimNext ledger (some fn) = (ledger, some fn) := by
  induction ledger with
  | nil => rfl
  | cons e rest ih =>
    obtain ⟨fn', status⟩ := e
    rw [claimNext_cons, if_neg (fun hc => Option.some_ne_none fn hc.2), ih]

/-- Structure theorem for the claiming pass: either no line is `PENDING`
and the ledger is returned untouched, or the ledger splits around its
first `PENDING` line, which is the only line rewritten. -/
theorem claimNext_cases (ledger : Ledger) :
    (claimNext ledger none = (ledger, none) ∧ ∀ e ∈ ledger, e.2 ≠ JOB_STATUS_PENDING)
    ∨ (∃ pre fn post, ledger = pre ++ (fn, JOB_STATUS_PENDING) :: post ∧
        (∀ e ∈ pre, e.2 ≠ JOB_STATUS_PENDING) ∧
        claimNext ledger none =
          (pre ++ (fn, JOB_STATUS_IN_PROGRESS) :: post, some fn)) := by
  induction ledger with
  | nil => exact Or.inl ⟨rfl, by simp⟩
  | cons e rest ih =>
    obtain ⟨fn, status⟩ := e
    by_cases hst : status = JOB_STATUS_PENDING
    · subst hst
      refine Or.inr ⟨[], fn, rest, by simp, by simp, ?_⟩
      rw [claimNext_cons, if_pos ⟨rfl, rfl⟩, claimNext_some_claimed]
      simp
    · rcases ih with ⟨hrec, hall⟩ | ⟨pre, fn', post, hsplit, hpre, hrec⟩
      · refine Or.inl ⟨?_, ?_⟩
        · rw [claimNext_cons, if_neg (fun hc => hst hc.1), hrec]
        · intro e he
          rcases List.mem_cons.mp he with h | h
          · rw [h]; exact hst
          · exact hall e h
      · refine Or.inr ⟨(fn, status) :: pre, fn', post, by simp [hsplit], ?_, ?_⟩
        · intro e he
          rcases List.mem_cons.mp he with h | h
          · rw [h]; exact hst
          · exact hpre e h
        · rw [claimNext_cons, if_neg (fun hc => hst hc.1), hrec]
          simp [hsplit]

/-- Claiming a ledger whose first `PENDING` line is exhibited explicitly. -/
theorem claimNext_first_pending (pre post : Ledger) (fn : String)
    (hpre : ∀ e ∈ pre, e.2 ≠ JOB_STATUS_PENDING) :
    claimNext (pre ++ (fn, JOB_STATUS_PENDING) :: post) none =
      (pre ++ (fn, JOB_STATUS_IN_PROGRESS) :: post, some fn) := by
  induction pre with
  | nil =>
    rw [List.nil_append, claimNext_cons, if_pos ⟨rfl, rfl⟩, claimNext_some_claimed]
    simp
  | cons e rest ih =>
    obtain ⟨fn', status⟩ := e
    have hst : status ≠ JOB_STATUS_PENDING := hpre (fn', status) (List.mem_cons_self _ _)
    rw [List.cons_append, claimNext_cons, if_neg (fun hc => hst hc.1),
      ih (fun e he => hpre e (List.mem_cons_of_mem _ he))]
    simp

/-! ### Lemmas about `basename` and `pathJoin` -/

theorem takeWhile_append_stop {p : Char → Bool} (l₁ l₂ : List Char) (a : Char)
    (h₁ : ∀ x ∈ l₁, p x = true) (h₂ : p a = false) :
    (l₁ ++ a :: l₂).takeWhile p = l₁ := by
  induction l₁ with
  | nil => simp [List.takeWhile, h₂]
  | cons x xs ih =>
    have hx : p x = true := h₁ x (List.mem_cons_self _ _)
    simp only [List.cons_append, List.takeWhile, hx, List.append_eq]
    rw [ih (fun y hy => h₁ y (List.mem_cons_of_mem _ hy))]

theorem basename_pathJoin (folder fn : String) (h : '/' ∉ fn.data) :
    basename (pathJoin folder fn) = fn := by
  have hslash : ("/" : String).data = ['/'] := by decide
  have hdata : (pathJoin folder fn).data = folder.data ++ '/' :: fn.data := by
    show (folder ++ "/" ++ fn).data = _
    rw [String.data_append, String.data_append, hslash]
    simp
  unfold basename basenameChars
  rw [hdata]
  rw [show (folder.data ++ '/' :: fn.data).reverse
        = fn.data.reverse ++ '/' :: folder.data.reverse by
      simp]
  rw [takeWhile_append_stop _ _ _ ?hall ?hstop]
  · simp
  case hall =>
    intro x hx
    have : x ∈ fn.data := List.mem_reverse.mp hx
    simp only [decide_eq_true_eq, ne_eq]
    intro hxe
    exact h (hxe ▸ this)
  case hstop => simp

/-! ### Claim C2: behaviour of `claim_next_job` -/

/-- C2 counterexample: on the ledger line `,PENDING` (empty filename) the
first `PENDING` line is rewritten to `IN_PROGRESS`, yet the function
returns `None` instead of the claimed filename joined to the folder
(Python truthiness of the empty string), so the claim as stated fails. -/
theorem claim_next_job_empty_filename_cex :
    claim_next_job "F" [("", JOB_STATUS_PENDING)]
        = ([("", JOB_STATUS_IN_PROGRESS)], none) ∧
      (none : Option String) ≠ some (pathJoin "F" "") := by
  constructor
  · decide
  · simp

/-- C2 (amended): `claim_next_job` rewrites exactly the first `PENDING`
line to `IN_PROGRESS` and returns that filename joined to the folder path
provided the filename is non-empty; with no `PENDING` line it returns
`none` and leaves the ledger unchanged. -/
theorem claim_next_job_spec (folder : String) (ledger : Ledger) :
    ((∀ e ∈ ledger, e.2 ≠ JOB_STATUS_PENDING) →
      claim_next_job folder ledger = (ledger, none))
    ∧ (∀ pre fn post, ledger = pre ++ (fn, JOB_STATUS_PENDING) :: post →
        (∀ e ∈ pre, e.2 ≠ JOB_STATUS_PENDING) → fn ≠ "" →
        claim_next_job folder ledger =
          (pre ++ (fn, JOB_STATUS_IN_PROGRESS) :: post, some (pathJoin folder fn))) := by
  constructor
  · intro h
    unfold claim_next_job
    rw [claimNext_no_pending ledger h]
  · intro pre fn post hsplit hpre hfn
    unfold claim_next_job
    rw [hsplit, claimNext_first_pending pre post fn hpre]
    simp [hfn]

theorem claim_next_job_spec_witness :
    claim_next_job "F" [("a.geojson", JOB_STATUS_PENDING)] =
        ([("a.geojson", JOB_STATUS_IN_PROGRESS)], some (pathJoin "F" "a.geojson")) ∧
      claim_next_job "F" [("b.geojson", JOB_STATUS_DONE)] =
        ([("b.geojson", JOB_STATUS_DONE)], none) :=
  ⟨(claim_next_job_spec "F" [("a.geojson", JOB_STATUS_PENDING)]).2
      [] "a.geojson" [] rfl (by simp) (by decide),
    (claim_next_job_spec "F" [("b.geojson", JOB_STATUS_DONE)]).1 (by decide)⟩

/-! ### Claim C1: what the main loop does to a failed job -/

theorem statusOf_mark (l : Ledger) (p fn : String) (h : basename p = fn)
    (hmem : fn ∈ l.map Prod.fst) :
    statusOf fn (mark_job_done l p) = some JOB_STATUS_DONE := by
  induction l with
  | nil => simp at hmem
  | cons e rest ih =>
    obtain ⟨k, v⟩ := e
    by_cases hk : k = fn
    · subst hk
      unfold mark_job_done
      simp only [List.map_cons]
      rw [if_pos h.symm]
      unfold statusOf
      rw [if_pos rfl]
    · have hmem' : fn ∈ rest.map Prod.fst := by
        rcases List.mem_cons.mp hmem with h' | h'
        · exact absurd h'.symm hk
        · exact h'
      unfold mark_job_done
      simp only [List.map_cons]
      by_cases hbk : k = basename p
      · rw [if_pos hbk]
        unfold statusOf
        rw [if_neg hk]
        exact ih hmem'
      · rw [if_neg hbk]
        unfold statusOf
        rw [if_neg hk]
        exact ih hmem'

/-- C1 counterexample: a single pending job is claimed; its processing
fails (`outcome = false`, i.e. `process_geojson` swallowed an error), yet
after the loop body the ledger entry is `DONE`, not `IN_PROGRESS`: the
loop calls `mark_job_done` unconditionally. -/
theorem run_loop_failed_job_marked_done_cex :
    statusOf "a.geojson" (runLoopBody "F" [("a.geojson", JOB_STATUS_PENDING)] false)
        = some JOB_STATUS_DONE ∧
      JOB_STATUS_DONE ≠ JOB_STATUS_IN_PROGRESS := by
  constructor
  · decide
  · decide

/-- C1 (amended): whenever the loop body claims a job its entry ends the
iteration as `DONE`, regardless of whether `process_geojson` succeeded,
because `process_geojson` swallows every error and the loop then calls
`mark_job_done` unconditionally.  A job can stay `IN_PROGRESS` only if
the worker dies (or a lock timeout aborts it) between the claim and the
mark, not through an in-process failure. -/
theorem run_loop_always_marks_done (folder : String) (ledger : Ledger) (outcome : Bool)
    (pre post : Ledger) (fn : String)
    (hsplit : ledger = pre ++ (fn, JOB_STATUS_PENDING) :: post)
    (hpre : ∀ e ∈ pre, e.2 ≠ JOB_STATUS_PENDING)
    (hfn : fn ≠ "") (hslash : '/' ∉ fn.data) :
    statusOf fn (runLoopBody folder ledger outcome) = some JOB_STATUS_DONE := by
  have hc := (claim_next_job_spec folder ledger).2 pre fn post hsplit hpre hfn
  unfold runLoopBody
  rw [hc]
  exact statusOf_mark _ _ _ (basename_pathJoin folder fn hslash) (by simp)

theorem run_loop_always_marks_done_witness :
    statusOf "b.geojson"
        (runLoopBody "F"
          [("a.geojson", JOB_STATUS_DONE), ("b.geojson", JOB_STATUS_PENDING)] true)
      = some JOB_STATUS_DONE :=
  run_loop_always_marks_done "F" _ true [("a.geojson", JOB_STATUS_DONE)] []
    "b.geojson" rfl (by decide) (by decide) (by decide)

/-! ### Claim C9: each ledger operation changes at most one line -/

/-- Number of positions at which two ledgers disagree (positionwise). -/
def diffCount : Ledger → Ledger → Nat
  | a :: as, b :: bs => (if a = b then 0 else 1) + diffCount as bs
  | _, _ => 0

theorem diffCount_self (l : Ledger) : diffCount l l = 0 := by
  induction l with
  | nil => rfl
  | cons e rest ih => simp [diffCount, ih]

theorem diffCount_replace_middle (pre post : Ledger) (a b : LedgerEntry) :
    diffCount (pre ++ a :: post) (pre ++ b :: post) ≤ 1 := by
  induction pre with
  | nil =>
    simp only [List.nil_append, diffCount, diffCount_self post]
    by_cases hab : a = b <;> simp [hab]
  | cons e rest ih =>
    simpa [diffCount] using ih

theorem diffCount_map_le {g : LedgerEntry → LedgerEntry} (l : Ledger)
    (key : String)
    (hg : ∀ e, e.1 ≠ key → g e = e)
    (hnd : (l.map Prod.fst).Nodup) :
    diffCount l (l.map g) ≤ 1 := by
  induction l with
  | nil => exact Nat.zero_le _
  | cons e rest ih =>
    simp only [List.map_cons, List.nodup_cons] at hnd
    obtain ⟨hknot, hnd'⟩ := hnd
    simp only [List.map_cons, diffCount]
    by_cases hk : e.1 = key
    · -- every later entry has a key different from `key`, so `g` keeps it
      have hrest : rest.map g = rest := by
        conv_rhs => rw [← List.map_id rest]
        apply List.map_congr_left
        intro x hx
        apply hg
        intro hxk
        apply hknot
        rw [hk, ← hxk]
        exact List.mem_map_of_mem Prod.fst hx
      rw [hrest, diffCount_self rest]
      by_cases hge : e = g e
      · rw [if_pos hge]
        simp
      · rw [if_neg hge]
    · rw [hg e hk]
      have hih := ih hnd'
      simpa using hih

/-- C9 counterexample: with a duplicated filename in the ledger,
`mark_job_done` rewrites both matching lines, so more than one line
changes; the claim (at most one line for every ledger state) fails. -/
theorem mark_job_done_two_lines_cex :
    mark_job_done [("a", JOB_STATUS_PENDING), ("a", JOB_STATUS_PENDING)] "F/a"
        = [("a", JOB_STATUS_DONE), ("a", JOB_STATUS_DONE)] ∧
      diffCount [("a", JOB_STATUS_PENDING), ("a", JOB_STATUS_PENDING)]
          (mark_job_done [("a", JOB_STATUS_PENDING), ("a", JOB_STATUS_PENDING)] "F/a")
        = 2 := by
  constructor
  · decide
  · decide

/-- C9 (amended): both ledger operations rewrite the whole file yet
preserve the number and order of lines; `claim_next_job` changes at most
one `filename,status` pair on every ledger, and `mark_job_done` changes
at most one pair provided the ledger filenames are distinct (as
`build_job_list` produces them); with duplicated filenames it rewrites
every matching line. -/
theorem ledger_ops_change_at_most_one_line (folder : String) (ledger : Ledger)
    (path : String) :
    ((claim_next_job folder ledger).1.length = ledger.length ∧
      diffCount ledger (claim_next_job folder ledger).1 ≤ 1)
    ∧ ((mark_job_done ledger path).length = ledger.length ∧
      ((ledger.map Prod.fst).Nodup →
        diffCount ledger (mark_job_done ledger path) ≤ 1)) := by
  refine ⟨⟨?_, ?_⟩, ?_, ?_⟩
  · rcases claimNext_cases ledger with ⟨hrec, -⟩ | ⟨pre, fn, post, hsplit, -, hrec⟩
    · unfold claim_next_job
      rw [hrec]
    · unfold claim_next_job
      rw [hrec]
      simp [hsplit]
  · rcases claimNext_cases ledger with ⟨hrec, -⟩ | ⟨pre, fn, post, hsplit, -, hrec⟩
    · unfold claim_next_job
      rw [hrec]
      simp [diffCount_self]
    · unfold claim_next_job
      rw [hrec]
      simp only [hsplit]
      exact diffCount_replace_middle pre post _ _
  · unfold mark_job_done
    simp
  · intro hnd
    unfold mark_job_done
    exact diffCount_map_le ledger (basename path)
      (fun e he => by rw [if_neg he]) hnd

theorem ledger_ops_change_at_most_one_line_witness :
    diffCount [("a.geojson", JOB_STATUS_PENDING), ("b.geojson", JOB_STATUS_PENDING)]
        (mark_job_done
          [("a.geojson", JOB_STATUS_PENDING), ("b.geojson", JOB_STATUS_PENDING)]
          "F/a.geojson") ≤ 1 :=
  (ledger_ops_change_at_most_one_line "F"
    [("a.geojson", JOB_STATUS_PENDING), ("b.geojson", JOB_STATUS_PENDING)]
    "F/a.geojson").2.2 (by decide)

/-! ## Attribute values and the group-key classifier

Attribute values reaching `get_group_key` are Python `None` (QGIS NULL is
modelled the same way), integers, or strings.  `pyEq` is Python `==` on
this domain, `pyMem` is `x in [...]`, `pyStr` is `str(x)`. -/

inductive PyVal where
  | none : PyVal
  | int : Int → PyVal
  | str : String → PyVal
deriving DecidableEq, Repr

def pyEq : PyVal → PyVal → Bool
  | .none, .none => true
  | .int a, .int b => a == b
  | .str a, .str b => a == b
  | _, _ => false

def pyMem (x : PyVal) (l : List PyVal) : Bool := l.any (pyEq x)

/-- Python `x is None` (identity test). -/
def pyIsNone : PyVal → Bool
  | .none => true
  | _ => false

/-- Python `str(x)` on the modelled value domain. -/
def pyStr : PyVal → String
  | .none => "None"
  | .int n => toString n
  | .str s => s

/-- Python `s.isdigit()` restricted to ASCII digits (the scripts' data uses
ASCII codes). -/
def isDigitStr (s : String) : Bool := !s.data.isEmpty && s.data.all Char.isDigit

/-- Python `int(s)` for a digit-only string: its decimal value. -/
def parseDigits (s : String) : Int :=
  ((s.data.foldl (fun n c => n * 10 + (c.toNat - '0'.toNat)) 0 : Nat) : Int)

/-- The `norm` helper of `get_group_key` (textually identical in both
variants): blank, `None`-like and digit strings are normalized. -/
def normVal (x : PyVal) : PyVal :=
  if pyMem x [PyVal.none, PyVal.str "", PyVal.str "None"] then PyVal.none
  else match x with
    | PyVal.str s => if isDigitStr s then PyVal.int (parseDigits s) else PyVal.str s
    | v => v

/-- A feature is its attribute map: field name to value (first match wins,
matching `feat[field] if field in feat.fields().names() else None`). -/
abbrev Feature := List (String × PyVal)

def safe_val : Feature → String → PyVal
  | [], _ => PyVal.none
  | (k, v) :: rest, field => if k = field then v else safe_val rest field

/-- Python `s.strip()`: remove leading and trailing whitespace. -/
def pyStrip (s : String) : String :=
  String.mk (((s.data.dropWhile Char.isWhitespace).reverse.dropWhile
    Char.isWhitespace).reverse)

/-- `str(safe_val("Type")).strip() if safe_val("Type") is not None else ""`
(shared by both variants). -/
def typeOf (f : Feature) : String :=
  match safe_val f "Type" with
  | PyVal.none => ""
  | v => pyStrip (pyStr v)

/-- `get_group_key` as in `new-qgis-workflow-8-8-25.py` (conditions written
with Python `in [None, 0]` list membership). -/
def get_group_key (f : Feature) : String :=
  let t := typeOf f
  let m_norm := normVal (safe_val f "M")
  let mn_norm := normVal (safe_val f "MN")
  let b_norm := normVal (safe_val f "B")
  let k_norm := normVal (safe_val f "K")
  -- shared fall-through of the function: `if m_norm not in [None, 0]:
  -- return str(m_norm); return "0"`
  let fallback := if !(pyMem m_norm [PyVal.none, PyVal.int 0]) then pyStr m_norm else "0"
  if t = "MT" then
    if pyMem m_norm [PyVal.none, PyVal.int 0] && pyMem mn_norm [PyVal.none, PyVal.int 0] then
      "0"
    else if !(pyMem m_norm [PyVal.none, PyVal.int 0]) && pyMem mn_norm [PyVal.none, PyVal.int 0] then
      pyStr m_norm
    else if !(pyMem mn_norm [PyVal.none, PyVal.int 0]) && pyMem m_norm [PyVal.none, PyVal.int 0] then
      pyStr mn_norm
    else if (!(pyIsNone m_norm) && !(pyIsNone mn_norm)) && pyEq m_norm mn_norm then
      pyStr m_norm
    else if !(pyMem mn_norm [PyVal.none, PyVal.int 0]) then
      if pyMem b_norm [PyVal.none, PyVal.str "", PyVal.str "None", PyVal.int 0, PyVal.str "0"] then
        pyStr mn_norm
      else
        pyStr b_norm ++ "/" ++ pyStr mn_norm
    else if !(pyMem m_norm [PyVal.none, PyVal.int 0]) then
      pyStr m_norm
    else "0"
  else if t = "MU" || t = "MU/MT" || t = "MT/MU" || t = "MU/KW" || t = "KW" then
    if !(pyMem m_norm [PyVal.none, PyVal.int 0]) then pyStr m_norm else fallback
  else if t = "K" then
    if !(pyMem k_norm [PyVal.none, PyVal.int 0]) then pyStr k_norm else fallback
  else fallback

/-- `get_group_key` as in `qgis-workflow-30-7-25.py` (the first three `MT`
conditions are spelled with `is None` / `== 0` instead of list
membership; everything else is textually identical). -/
def get_group_key_v1 (f : Feature) : String :=
  let t := typeOf f
  let m_norm := normVal (safe_val f "M")
  let mn_norm := normVal (safe_val f "MN")
  let b_norm := normVal (safe_val f "B")
  let k_norm := normVal (safe_val f "K")
  let fallback := if !(pyMem m_norm [PyVal.none, PyVal.int 0]) then pyStr m_norm else "0"
  if t = "MT" then
    if (pyIsNone m_norm || pyEq m_norm (PyVal.int 0))
        && (pyIsNone mn_norm || pyEq mn_norm (PyVal.int 0)) then
      "0"
    else if (!(pyIsNone m_norm) && !(pyEq m_norm (PyVal.int 0)))
        && (pyIsNone mn_norm || pyEq mn_norm (PyVal.int 0)) then
      pyStr m_norm
    else if (!(pyIsNone mn_norm) && !(pyEq mn_norm (PyVal.int 0)))
        && (pyIsNone m_norm || pyEq m_norm (PyVal.int 0)) then
      pyStr mn_norm
    else if (!(pyIsNone m_norm) && !(pyIsNone mn_norm)) && pyEq m_norm mn_norm then
      pyStr m_norm
    else if !(pyMem mn_norm [PyVal.none, PyVal.int 0]) then
      if pyMem b_norm [PyVal.none, PyVal.str "", PyVal.str "None", PyVal.int 0, PyVal.str "0"] then
        pyStr mn_norm
      else
        pyStr b_norm ++ "/" ++ pyStr mn_norm
    else if !(pyMem m_norm [PyVal.none, PyVal.int 0]) then
      pyStr m_norm
    else "0"
  else if t = "MU" || t = "MU/MT" || t = "MT/MU" || t = "MU/KW" || t = "KW" then
    if !(pyMem m_norm [PyVal.none, PyVal.int 0]) then pyStr m_norm else fallback
  else if t = "K" then
    if !(pyMem k_norm [PyVal.none, PyVal.int 0]) then pyStr k_norm else fallback
  else fallback

theorem pyMem_none_zero (v : PyVal) :
    pyMem v [PyVal.none, PyVal.int 0] = (pyIsNone v || pyEq v (PyVal.int 0)) := by
  cases v <;> simp [pyMem, pyEq, pyIsNone, List.any]

theorem pyEq_true_iff (a b : PyVal) : pyEq a b = true ↔ a = b := by
  cases a <;> cases b <;> simp [pyEq]

/-- C10: the two source variants compute the same group key on every
attribute tuple — the 8-8-25 conditions (`in [None, 0]`) and the 30-7-25
conditions (`is None` / `== 0`) are equivalent over the value domain. -/
theorem group_key_variants_agree (f : Feature) :
    get_group_key f = get_group_key_v1 f := by
  unfold get_group_key get_group_key_v1
  simp only [pyMem_none_zero, Bool.not_or]

/-- A value that the classifier treats as absent after normalization:
`None` or the literal zero (the claim's normalization). -/
def absentVal (v : PyVal) : Prop := v = PyVal.none ∨ v = PyVal.int 0

instance (v : PyVal) : Decidable (absentVal v) := by
  unfold absentVal
  infer_instance

theorem pyMem_nz_iff (v : PyVal) :
    pyMem v [PyVal.none, PyVal.int 0] = true ↔ absentVal v := by
  cases v <;> simp [pyMem, pyEq, absentVal]

theorem pyMem_nz_false_iff (v : PyVal) :
    pyMem v [PyVal.none, PyVal.int 0] = false ↔ ¬ absentVal v := by
  rw [← pyMem_nz_iff]
  cases pyMem v [PyVal.none, PyVal.int 0] <;> simp

theorem pyIsNone_eq_false (v : PyVal) (h : v ≠ PyVal.none) : pyIsNone v = false := by
  cases v with
  | none => exact absurd rfl h
  | int n => rfl
  | str s => rfl

theorem normVal_str (s : String) :
    normVal (PyVal.str s) =
      if (s == "" || s == "None") then PyVal.none
      else if isDigitStr s then PyVal.int (parseDigits s) else PyVal.str s := by
  show (if pyMem (PyVal.str s) [PyVal.none, PyVal.str "", PyVal.str "None"] = true
      then PyVal.none
      else if isDigitStr s = true then PyVal.int (parseDigits s) else PyVal.str s) = _
  rw [show pyMem (PyVal.str s) [PyVal.none, PyVal.str "", PyVal.str "None"]
      = (s == "" || s == "None") from by simp [pyMem, pyEq]]

/-- `normVal` never returns the sentinel strings `""`, `"None"` or `"0"`:
the first two are collapsed to `None`, the third is parsed to `0`. -/
theorem normVal_not_sentinel (x : PyVal) :
    normVal x ≠ PyVal.str "" ∧ normVal x ≠ PyVal.str "None" ∧
      normVal x ≠ PyVal.str "0" := by
  cases x with
  | none => simp [normVal, pyMem, pyEq]
  | int n => simp [normVal, pyMem, pyEq]
  | str s =>
    rw [normVal_str]
    by_cases h : (s == "" || s == "None") = true
    · rw [if_pos h]
      simp
    · rw [if_neg h]
      by_cases hd : isDigitStr s = true
      · rw [if_pos hd]
        simp
      · rw [if_neg hd]
        simp only [Bool.or_eq_true, beq_iff_eq, not_or] at h
        refine ⟨?_, ?_, ?_⟩
        · intro he
          exact h.1 (PyVal.str.injEq .. ▸ he.symm ▸ rfl)
        · intro he
          exact h.2 (PyVal.str.injEq .. ▸ he.symm ▸ rfl)
        · intro he
          apply hd
          rw [show s = "0" from PyVal.str.injEq .. ▸ he.symm ▸ rfl]
          decide

/-- On normalized values the extended `B` membership test of the source
coincides with the plain `[None, 0]` test. -/
theorem pyMem_bigB (x : PyVal) :
    pyMem (normVal x)
        [PyVal.none, PyVal.str "", PyVal.str "None", PyVal.int 0, PyVal.str "0"] =
      pyMem (normVal x) [PyVal.none, PyVal.int 0] := by
  obtain ⟨h1, h2, h3⟩ := normVal_not_sentinel x
  cases hv : normVal x with
  | none => simp [pyMem, pyEq]
  | int n => simp [pyMem, pyEq]
  | str s =>
    rw [hv] at h1 h2 h3
    have hs1 : s ≠ "" := fun h => h1 (by rw [h])
    have hs2 : s ≠ "None" := fun h => h2 (by rw [h])
    have hs3 : s ≠ "0" := fun h => h3 (by rw [h])
    simp [pyMem, pyEq, hs1, hs2, hs3]

/-- C3: dispatch of `get_group_key` for features whose `Type` is `"MT"`,
after normalization (blank, `None` and literal zero collapse to absent,
digit strings parse to integers): both `M` and `MN` absent gives `"0"`;
exactly one present gives that value's string form; both present and
equal gives that value; both present and different gives the `MN`-based
key, `B/MN` when `B` is present, else `MN`; together with the concrete
examples of the specification. -/
theorem get_group_key_MT_dispatch :
    (∀ f : Feature, typeOf f = "MT" →
      (absentVal (normVal (safe_val f "M")) → absentVal (normVal (safe_val f "MN")) →
        get_group_key f = "0") ∧
      (¬ absentVal (normVal (safe_val f "M")) → absentVal (normVal (safe_val f "MN")) →
        get_group_key f = pyStr (normVal (safe_val f "M"))) ∧
      (absentVal (normVal (safe_val f "M")) → ¬ absentVal (normVal (safe_val f "MN")) →
        get_group_key f = pyStr (normVal (safe_val f "MN"))) ∧
      (¬ absentVal (normVal (safe_val f "M")) → ¬ absentVal (normVal (safe_val f "MN")) →
        normVal (safe_val f "M") = normVal (safe_val f "MN") →
        get_group_key f = pyStr (normVal (safe_val f "M"))) ∧
      (¬ absentVal (normVal (safe_val f "M")) → ¬ absentVal (normVal (safe_val f "MN")) →
        normVal (safe_val f "M") ≠ normVal (safe_val f "MN") →
        absentVal (normVal (safe_val f "B")) →
        get_group_key f = pyStr (normVal (safe_val f "MN"))) ∧
      (¬ absentVal (normVal (safe_val f "M")) → ¬ absentVal (normVal (safe_val f "MN")) →
        normVal (safe_val f "M") ≠ normVal (safe_val f "MN") →
        ¬ absentVal (normVal (safe_val f "B")) →
        get_group_key f =
          pyStr (normVal (safe_val f "B")) ++ "/" ++ pyStr (normVal (safe_val f "MN"))))
    ∧ get_group_key [("Type", PyVal.str "MT"), ("M", PyVal.int 5), ("MN", PyVal.int 5)] = "5"
    ∧ get_group_key
        [("Type", PyVal.str "MT"), ("M", PyVal.int 5), ("MN", PyVal.int 8), ("B", PyVal.int 3)]
        = "3/8"
    ∧ get_group_key [("Type", PyVal.str "MT"), ("M", PyVal.none), ("MN", PyVal.none)] = "0"
    ∧ get_group_key [("Type", PyVal.str "K"), ("K", PyVal.str "7")] = "7"
    ∧ get_group_key [("Type", PyVal.str "X"), ("M", PyVal.int 4)] = "4" := by
  refine ⟨fun f hT => ⟨?_, ?_, ?_, ?_, ?_, ?_⟩, by decide, by decide, by decide, by decide,
    by decide⟩
  · intro hm hmn
    have hm' := (pyMem_nz_iff _).mpr hm
    have hmn' := (pyMem_nz_iff _).mpr hmn
    unfold get_group_key
    rw [hT]
    simp [hm', hmn']
  · intro hm hmn
    have hm' := (pyMem_nz_false_iff _).mpr hm
    have hmn' := (pyMem_nz_iff _).mpr hmn
    unfold get_group_key
    rw [hT]
    simp [hm', hmn']
  · intro hm hmn
    have hm' := (pyMem_nz_iff _).mpr hm
    have hmn' := (pyMem_nz_false_iff _).mpr hmn
    unfold get_group_key
    rw [hT]
    simp [hm', hmn']
  · intro hm hmn heq
    have hm' := (pyMem_nz_false_iff _).mpr hm
    have hmn' := (pyMem_nz_false_iff _).mpr hmn
    have hmN : pyIsNone (normVal (safe_val f "M")) = false :=
      pyIsNone_eq_false _ (fun h => hm (Or.inl h))
    have hmnN : pyIsNone (normVal (safe_val f "MN")) = false :=
      pyIsNone_eq_false _ (fun h => hmn (Or.inl h))
    have hpe : pyEq (normVal (safe_val f "M")) (normVal (safe_val f "MN")) = true :=
      (pyEq_true_iff _ _).mpr heq
    unfold get_group_key
    rw [hT]
    simp [hm', hmn', hmN, hmnN, hpe]
  · intro hm hmn hne hb
    have hm' := (pyMem_nz_false_iff _).mpr hm
    have hmn' := (pyMem_nz_false_iff _).mpr hmn
    have hpe : pyEq (normVal (safe_val f "M")) (normVal (safe_val f "MN")) = false := by
      cases h : pyEq (normVal (safe_val f "M")) (normVal (safe_val f "MN"))
      · rfl
      · exact absurd ((pyEq_true_iff _ _).mp h) hne
    have hb' : pyMem (normVal (safe_val f "B"))
        [PyVal.none, PyVal.str "", PyVal.str "None", PyVal.int 0, PyVal.str "0"] = true := by
      rw [pyMem_bigB]
      exact (pyMem_nz_iff _).mpr hb
    unfold get_group_key
    rw [hT]
    simp [hm', hmn', hpe, hb']
  · intro hm hmn hne hb
    have hm' := (pyMem_nz_false_iff _).mpr hm
    have hmn' := (pyMem_nz_false_iff _).mpr hmn
    have hpe : pyEq (normVal (safe_val f "M")) (normVal (safe_val f "MN")) = false := by
      cases h : pyEq (normVal (safe_val f "M")) (normVal (safe_val f "MN"))
      · rfl
      · exact absurd ((pyEq_true_iff _ _).mp h) hne
    have hb' : pyMem (normVal (safe_val f "B"))
        [PyVal.none, PyVal.str "", PyVal.str "None", PyVal.int 0, PyVal.str "0"] = false := by
      rw [pyMem_bigB]
      exact (pyMem_nz_false_iff _).mpr hb
    unfold get_group_key
    rw [hT]
    simp [hm', hmn', hpe, hb']

theorem get_group_key_MT_dispatch_witness :
    get_group_key [("Type", PyVal.str "MT"), ("M", PyVal.int 7)]
      = pyStr (normVal (safe_val [("Type", PyVal.str "MT"), ("M", PyVal.int 7)] "M")) :=
  ((get_group_key_MT_dispatch.1 [("Type", PyVal.str "MT"), ("M", PyVal.int 7)]
      (by decide)).2.1) (by decide) (by decide)

/-! ## Blank-tile detection (`is_blank_tile` / `process_tile`)

A tile file is observed through `os.path.getsize` (`size`, `none` when
the call raises) and through `Image.open(...).convert("RGBA")` (`img`,
the decoded RGBA pixel buffer, `none` when decoding raises).  The test
`ImageChops.difference(rgba_img, blank).getbbox() is None` holds exactly
when every pixel equals the fully transparent reference pixel. -/

structure RGBA where
  r : Nat
  g : Nat
  b : Nat
  a : Nat
deriving DecidableEq, Repr

def blankPixel : RGBA := ⟨0, 0, 0, 0⟩

structure Tile where
  size : Option Nat
  img : Option (List RGBA)

def BLANK_TILE_SIZE_BYTES : Nat := 1800

/-- `is_blank_tile` of `new-qgis-workflow-8-8-25.py`: size gate first
(failures and oversize files give `False`), then the exact pixel
comparison against the transparent reference image. -/
def is_blank_tile (t : Tile) : Bool :=
  match t.size with
  | none => false
  | some s =>
    if s > BLANK_TILE_SIZE_BYTES then false
    else match t.img with
      | none => false
      | some pix => pix.all (fun p => p == blankPixel)

/-- `process_tile`: the tile is deleted (and counted) exactly when
`is_blank_tile` holds; removal errors are swallowed. -/
def process_tile (t : Tile) : Bool := is_blank_tile t

/-- C6 counterexample: a fully transparent tile whose file size exceeds
`BLANK_TILE_SIZE_BYTES` is not deleted — the size pre-filter rejects it
before the pixel test, so "if it is fully transparent it is deleted" fails
on it. -/
theorem blank_oversize_tile_kept_cex :
    (∀ p ∈ [blankPixel], p = blankPixel) ∧
      is_blank_tile ⟨some 1801, some [blankPixel]⟩ = false := by
  constructor
  · decide
  · decide

/-- C6 (amended): a tile is deleted exactly when its size could be read
and is at most `BLANK_TILE_SIZE_BYTES`, it decodes, and every RGBA pixel
equals the fully transparent reference (exact equality, no tolerance);
in particular any tile with one non-transparent pixel is kept whatever
its size, and a tile whose decode fails is kept. -/
theorem is_blank_tile_spec (t : Tile) :
    (is_blank_tile t = true ↔
      (∃ s, t.size = some s ∧ s ≤ BLANK_TILE_SIZE_BYTES) ∧
        (∃ pix, t.img = some pix ∧ ∀ p ∈ pix, p = blankPixel))
    ∧ (∀ pix p, t.img = some pix → p ∈ pix → p ≠ blankPixel →
        is_blank_tile t = false)
    ∧ (t.img = none → is_blank_tile t = false)
    ∧ process_tile t = is_blank_tile t := by
  obtain ⟨sz, img⟩ := t
  refine ⟨?_, ?_, ?_, rfl⟩
  · cases sz with
    | none => simp [is_blank_tile]
    | some s =>
      by_cases hs : s > BLANK_TILE_SIZE_BYTES
      · simp [is_blank_tile, hs]
      · cases img with
        | none => simp [is_blank_tile, hs]
        | some pix =>
          simp [is_blank_tile, hs, List.all_eq_true]
          intro h
          omega
  · intro pix p himg hp hne
    cases sz with
    | none => simp [is_blank_tile]
    | some s =>
      by_cases hs : s > BLANK_TILE_SIZE_BYTES
      · simp [is_blank_tile, hs]
      · simp only [Option.some.injEq] at himg
        subst himg
        simp [is_blank_tile, hs, List.all_eq_true]
        exact ⟨p, hp, hne⟩
  · intro himg
    subst himg
    cases sz with
    | none => simp [is_blank_tile]
    | some s => by_cases hs : s > BLANK_TILE_SIZE_BYTES <;> simp [is_blank_tile, hs]

theorem is_blank_tile_spec_witness :
    is_blank_tile ⟨some 100, some [RGBA.mk 255 0 0 0]⟩ = false ∧
      is_blank_tile ⟨some 100, some [blankPixel, blankPixel]⟩ = true :=
  ⟨(is_blank_tile_spec ⟨some 100, some [RGBA.mk 255 0 0 0]⟩).2.1
      [RGBA.mk 255 0 0 0] (RGBA.mk 255 0 0 0) rfl (by decide) (by decide),
    (is_blank_tile_spec ⟨some 100, some [blankPixel, blankPixel]⟩).1.mpr
      ⟨⟨100, rfl, by decide⟩, ⟨[blankPixel, blankPixel], rfl, by decide⟩⟩⟩

/-! ## Outline containment filtering (`clean_outline_layer_batch`)

The removal phase of `clean_outline_layer_batch`
(`new-qgis-workflow-8-8-25.py`, lines 193-221): features are grouped by
`group_key` (dict insertion order), each group is sorted by ascending
geometry area (Python `sorted` is a stable ascending sort, modelled by a
stable insertion sort), and a feature is marked for removal when some
later feature of the same sorted group passes the bounding-box pre-filter
and the exact containment test.  Geometry is kept abstract: the scripts
only use `area`, `boundingBox().contains` and `contains`, so those are
parameters (`area`, `bbox`, `boxContains`, `geomContains`). -/

structure Feat (G : Type) where
  fid : Nat
  group_key : String
  geom : Option G
deriving DecidableEq

/-- Sort key `f.geometry().area()`; a missing geometry (for which the
Python expression would raise) gets an arbitrary key — such features are
skipped by both loops, and a stable sort keeps the relative order of all
other features whatever this key is. -/
def sortKey {G : Type} (area : G → Int) (f : Feat G) : Int :=
  match f.geom with
  | some g => area g
  | none => 0

/-- Stable ascending insertion: the new element goes after every element
of key less than or equal to its own. -/
def insertByArea {G : Type} (area : G → Int) (f : Feat G) :
    List (Feat G) → List (Feat G)
  | [] => [f]
  | g :: rest =>
    if sortKey area g ≤ sortKey area f then g :: insertByArea area f rest
    else f :: g :: rest

/-- `sorted(arr, key=lambda f: f.geometry().area())`: stable ascending. -/
def sortByArea {G : Type} (area : G → Int) (l : List (Feat G)) : List (Feat G) :=
  l.foldl (fun acc f => insertByArea area f acc) []

/-- Inner loop over `arr[i+1:]`: `continue` on missing geometry, `continue`
when the bounding-box pre-filter fails, `break` on the first feature whose
geometry contains `gs`. -/
def findContainer {G B : Type} (bbox : G → B) (boxContains : B → B → Bool)
    (geomContains : G → G → Bool) (bbS : B) (gs : G) : List (Feat G) → Bool
  | [] => false
  | fb :: rest =>
    match fb.geom with
    | none => findContainer bbox boxContains geomContains bbS gs rest
    | some gb =>
      if boxContains (bbox gb) bbS then
        if geomContains gb gs then true
        else findContainer bbox boxContains geomContains bbS gs rest
      else findContainer bbox boxContains geomContains bbS gs rest

/-- Outer loop over the sorted group: collect the ids of features for
which some later feature contains them. -/
def scanSorted {G B : Type} (bbox : G → B) (boxContains : B → B → Bool)
    (geomContains : G → G → Bool) : List (Feat G) → List Nat
  | [] => []
  | f :: rest =>
    match f.geom with
    | none => scanSorted bbox boxContains geomContains rest
    | some gs =>
      if findContainer bbox boxContains geomContains (bbox gs) gs rest then
        f.fid :: scanSorted bbox boxContains geomContains rest
      else scanSorted bbox boxContains geomContains rest

/-- Keys of `by_group` in dict insertion order. -/
def dedupKeys : List String → List String
  | [] => []
  | k :: ks => k :: dedupKeys (ks.filter (fun k2 => k2 ≠ k))
termination_by l => l.length
decreasing_by
  simp only [List.length_cons]
  exact Nat.lt_succ_of_le (List.length_filter_le _ _)

/-- The set `remove_ids` computed by `clean_outline_layer_batch`. -/
def clean_outline_removeIds {G B : Type} (area : G → Int) (bbox : G → B)
    (boxContains : B → B → Bool) (geomContains : G → G → Bool)
    (feats : List (Feat G)) : List Nat :=
  (dedupKeys (feats.map Feat.group_key)).flatMap
    (fun gk =>
      scanSorted bbox boxContains geomContains
        (sortByArea area (feats.filter (fun f => f.group_key = gk))))

theorem insertByArea_perm {G : Type} (area : G → Int) (f : Feat G)
    (l : List (Feat G)) : (insertByArea area f l).Perm (f :: l) := by
  induction l with
  | nil => exact List.Perm.refl _
  | cons g rest ih =>
    unfold insertByArea
    by_cases h : sortKey area g ≤ sortKey area f
    · rw [if_pos h]
      exact (ih.cons g).trans (List.Perm.swap f g rest)
    · rw [if_neg h]

theorem foldl_insertByArea_perm {G : Type} (area : G → Int)
    (l acc : List (Feat G)) :
    (l.foldl (fun acc f => insertByArea area f acc) acc).Perm (acc ++ l) := by
  induction l generalizing acc with
  | nil => simp
  | cons x rest ih =>
    simp only [List.foldl_cons]
    refine (ih (insertByArea area x acc)).trans ?_
    refine (List.Perm.append_right rest (insertByArea_perm area x acc)).trans ?_
    simpa using List.perm_middle.symm

theorem sortByArea_perm {G : Type} (area : G → Int) (l : List (Feat G)) :
    (sortByArea area l).Perm l := by
  simpa using foldl_insertByArea_perm area l []

theorem findContainer_sound {G B : Type} (bbox : G → B) (boxContains : B → B → Bool)
    (geomContains : G → G → Bool) (bbS : B) (gs : G) (l : List (Feat G))
    (h : findContainer bbox boxContains geomContains bbS gs l = true) :
    ∃ b ∈ l, ∃ gb, b.geom = some gb ∧ boxContains (bbox gb) bbS = true ∧
      geomContains gb gs = true := by
  induction l with
  | nil => simp [findContainer] at h
  | cons fb rest ih =>
    unfold findContainer at h
    split at h
    · obtain ⟨b, hb, r⟩ := ih h
      exact ⟨b, List.mem_cons_of_mem _ hb, r⟩
    · rename_i gb hg
      split at h
      · rename_i hbc
        split at h
        · rename_i hgc
          exact ⟨fb, List.mem_cons_self _ _, gb, hg, hbc, hgc⟩
        · obtain ⟨b, hb, r⟩ := ih h
          exact ⟨b, List.mem_cons_of_mem _ hb, r⟩
      · obtain ⟨b, hb, r⟩ := ih h
        exact ⟨b, List.mem_cons_of_mem _ hb, r⟩

/-- Structured soundness of the sorted-group scan: a removed id belongs to
a feature of the list, and some strictly later feature of the same list
passes both containment tests against it. -/
theorem scanSorted_sound {G B : Type} (bbox : G → B) (boxContains : B → B → Bool)
    (geomContains : G → G → Bool) (l : List (Feat G)) (fid : Nat)
    (h : fid ∈ scanSorted bbox boxContains geomContains l) :
    ∃ pre s rest, l = pre ++ s :: rest ∧ s.fid = fid ∧
      ∃ gs, s.geom = some gs ∧ ∃ b ∈ rest, ∃ gb, b.geom = some gb ∧
        boxContains (bbox gb) (bbox gs) = true ∧ geomContains gb gs = true := by
  induction l with
  | nil => simp [scanSorted] at h
  | cons f rest ih =>
    unfold scanSorted at h
    split at h
    · obtain ⟨pre, s, r2, hsplit, r⟩ := ih h
      exact ⟨f :: pre, s, r2, by rw [hsplit, List.cons_append], r⟩
    · rename_i gs hg
      split at h
      · rename_i hf
        rcases List.mem_cons.mp h with h1 | h2
        · obtain ⟨b, hb, gb, r⟩ := findContainer_sound _ _ _ _ _ _ hf
          exact ⟨[], f, rest, rfl, h1.symm, gs, hg, b, hb, gb, r⟩
        · obtain ⟨pre, s, r2, hsplit, r⟩ := ih h2
          exact ⟨f :: pre, s, r2, by rw [hsplit, List.cons_append], r⟩
      · obtain ⟨pre, s, r2, hsplit, r⟩ := ih h
        exact ⟨f :: pre, s, r2, by rw [hsplit, List.cons_append], r⟩

theorem mem_dedupKeys (k : String) (l : List String) (h : k ∈ l) :
    k ∈ dedupKeys l := by
  induction l using dedupKeys.induct with
  | case1 => simp at h
  | case2 k1 ks ih =>
    unfold dedupKeys
    rcases List.mem_cons.mp h with h1 | h2
    · exact h1 ▸ List.mem_cons_self _ _
    · by_cases hk : k = k1
      · exact hk ▸ List.mem_cons_self _ _
      · exact List.mem_cons_of_mem _ (ih (List.mem_filter.mpr ⟨h2, by simp [hk]⟩))

theorem sorted_filter_nodup_fid {G : Type} (area : G → Int) (feats : List (Feat G))
    (p : Feat G → Bool) (hnd : (feats.map Feat.fid).Nodup) :
    ((sortByArea area (feats.filter p)).map Feat.fid).Nodup := by
  have h1 : ((feats.filter p).map Feat.fid).Nodup :=
    ((List.filter_sublist feats).map Feat.fid).nodup hnd
  exact (((sortByArea_perm area (feats.filter p)).map Feat.fid).nodup_iff).mpr h1

/-- Elimination principle for `remove_ids`: every removed id comes from a
feature that some distinct feature of the same `group_key` contains,
bounding box first. -/
theorem removeIds_elim {G B : Type} (area : G → Int) (bbox : G → B)
    (boxContains : B → B → Bool) (geomContains : G → G → Bool)
    (feats : List (Feat G)) (hnd : (feats.map Feat.fid).Nodup) (fid : Nat)
    (hmem : fid ∈ clean_outline_removeIds area bbox boxContains geomContains feats) :
    ∃ s ∈ feats, s.fid = fid ∧ ∃ b ∈ feats, b ≠ s ∧ b.group_key = s.group_key ∧
      ∃ gs gb, s.geom = some gs ∧ b.geom = some gb ∧
        boxContains (bbox gb) (bbox gs) = true ∧ geomContains gb gs = true := by
  obtain ⟨gk, hgk, hscan⟩ := List.mem_flatMap.mp hmem
  obtain ⟨pre, s, rest, hsplit, hsfid, gs, hgs, b, hb, gb, hgb, hbc, hgc⟩ :=
    scanSorted_sound _ _ _ _ _ hscan
  have hperm := sortByArea_perm area (feats.filter (fun f => f.group_key = gk))
  have hsL : s ∈ sortByArea area (feats.filter (fun f => f.group_key = gk)) := by
    rw [hsplit]
    simp
  have hbL : b ∈ sortByArea area (feats.filter (fun f => f.group_key = gk)) := by
    rw [hsplit]
    exact List.mem_append_right _ (List.mem_cons_of_mem _ hb)
  have hsf := hperm.mem_iff.mp hsL
  have hbf := hperm.mem_iff.mp hbL
  have hs_feats : s ∈ feats := List.mem_of_mem_filter hsf
  have hb_feats : b ∈ feats := List.mem_of_mem_filter hbf
  have hs_gk : s.group_key = gk := by simpa using List.of_mem_filter hsf
  have hb_gk : b.group_key = gk := by simpa using List.of_mem_filter hbf
  have hLnd : ((sortByArea area (feats.filter (fun f => f.group_key = gk))).map
      Feat.fid).Nodup := sorted_filter_nodup_fid area feats _ hnd
  rw [hsplit] at hLnd
  have hbs : b ≠ s := by
    intro hbs
    subst hbs
    simp only [List.map_append, List.map_cons, List.nodup_append,
      List.nodup_cons] at hLnd
    exact hLnd.2.1.1 (List.mem_map_of_mem Feat.fid hb)
  exact ⟨s, hs_feats, hsfid, b, hb_feats, hbs, hb_gk.trans hs_gk.symm,
    gs, gb, hgs, hgb, hbc, hgc⟩

/-- C4: containment filtering removes a polygon only on account of a
distinct polygon with the same `group_key` that passes the bounding-box
pre-filter and the exact containment test; a polygon whose `group_key` is
shared by no other feature is never removed, whatever the geometric
predicates say. -/
theorem clean_outline_containment {G B : Type} (area : G → Int) (bbox : G → B)
    (boxContains : B → B → Bool) (geomContains : G → G → Bool)
    (feats : List (Feat G)) (hnd : (feats.map Feat.fid).Nodup) :
    (∀ fid ∈ clean_outline_removeIds area bbox boxContains geomContains feats,
      ∃ s ∈ feats, s.fid = fid ∧ ∃ b ∈ feats, b ≠ s ∧ b.group_key = s.group_key ∧
        ∃ gs gb, s.geom = some gs ∧ b.geom = some gb ∧
          boxContains (bbox gb) (bbox gs) = true ∧ geomContains gb gs = true)
    ∧ ∀ s ∈ feats, (∀ b ∈ feats, b.group_key = s.group_key → b.fid = s.fid) →
        s.fid ∉ clean_outline_removeIds area bbox boxContains geomContains feats := by
  refine ⟨fun fid hmem => removeIds_elim area bbox boxContains geomContains feats hnd
    fid hmem, ?_⟩
  intro s hs hiso hmem
  obtain ⟨s', hs', hfid', b, hb, hbs, hgk, -⟩ :=
    removeIds_elim area bbox boxContains geomContains feats hnd s.fid hmem
  have hinj := List.inj_on_of_nodup_map hnd
  have hss : s' = s := hinj hs' hs hfid'
  subst hss
  have hbfid : b.fid = s'.fid := hiso b hb (hgk)
  exact hbs (hinj hb hs' hbfid)

theorem clean_outline_containment_witness :
    (3 : Nat) ∉ clean_outline_removeIds (fun n : Nat => (n : Int)) (fun n => n)
      (fun a b => decide (b ≤ a)) (fun a b => decide (b ≤ a))
      [Feat.mk 1 "g" (some 1), Feat.mk 2 "g" (some 5), Feat.mk 3 "h" (some 2)] :=
  (clean_outline_containment (fun n : Nat => (n : Int)) (fun n => n)
      (fun a b => decide (b ≤ a)) (fun a b => decide (b ≤ a))
      [Feat.mk 1 "g" (some 1), Feat.mk 2 "g" (some 5), Feat.mk 3 "h" (some 2)]
      (by decide)).2 (Feat.mk 3 "h" (some 2)) (by decide) (by decide)

/-! ## Tile-count estimation (`compute_total_tiles_wgs84`)

The Python code computes with IEEE floats; the embedding idealizes the
arithmetic over the reals, keeping every formula literally as written
(`math.radians(lat) = lat * pi / 180`, `sec = 1 / cos`).  The loop
`for z in range(zoom_min, zoom_max + 1)` accumulating `total` is the
fold below. -/

noncomputable def lat_to_tile_y (lat : ℝ) (zoom : ℕ) : ℤ :=
  ⌊(1 - Real.log (Real.tan (lat * Real.pi / 180) +
      1 / Real.cos (lat * Real.pi / 180)) / Real.pi) / 2 * 2 ^ zoom⌋

/-- The per-level count `(txmax - txmin + 1) * (tymax - tymin + 1)` with
`txmin, txmax` the column floors of `xmin, xmax` and `tymin = lat_to_tile_y
ymax z`, `tymax = lat_to_tile_y ymin z`. -/
noncomputable def tilesForZoom (xmin xmax ymin ymax : ℝ) (z : ℕ) : ℤ :=
  (⌊(xmax + 180) / 360 * 2 ^ z⌋ - ⌊(xmin + 180) / 360 * 2 ^ z⌋ + 1) *
    (lat_to_tile_y ymin z - lat_to_tile_y ymax z + 1)

noncomputable def compute_total_tiles_wgs84 (xmin xmax ymin ymax : ℝ)
    (zoom_min zoom_max : ℕ) : ℤ :=
  (List.range' zoom_min (zoom_max + 1 - zoom_min)).foldl
    (fun total z => total + tilesForZoom xmin xmax ymin ymax z) 0

/-- The closed form stated by the specification for `EstimateTileCount`:
sum over the zoom levels of `(colMax - colMin + 1) * (rowMax - rowMin + 1)`
with columns `floor((lon + 180) / 360 * 2 ^ z)` and rows
`floor((1 - ln(tan lat + sec lat) / pi) / 2 * 2 ^ z)`, the north bound
giving the minimum row and the south bound the maximum row. -/
noncomputable def EstimateTileCountSpec (xmin xmax ymin ymax : ℝ)
    (zoomMin zoomMax : ℕ) : ℤ :=
  ∑ z ∈ Finset.Icc zoomMin zoomMax,
    ((⌊(xmax + 180) / 360 * 2 ^ z⌋ - ⌊(xmin + 180) / 360 * 2 ^ z⌋ + 1) *
      (⌊(1 - Real.log (Real.tan (ymin * Real.pi / 180) +
            1 / Real.cos (ymin * Real.pi / 180)) / Real.pi) / 2 * 2 ^ z⌋ -
        ⌊(1 - Real.log (Real.tan (ymax * Real.pi / 180) +
            1 / Real.cos (ymax * Real.pi / 180)) / Real.pi) / 2 * 2 ^ z⌋ + 1))

theorem foldl_add_range' (f : ℕ → ℤ) (n : ℕ) :
    ∀ (a : ℕ) (acc : ℤ), (List.range' a n).foldl (fun t z => t + f z) acc =
      acc + ∑ z ∈ Finset.Ico a (a + n), f z := by
  induction n with
  | zero => simp
  | succ m ih =>
    intro a acc
    rw [List.range'_succ]
    simp only [List.foldl_cons]
    rw [ih (a + 1) (acc + f a)]
    have hlt : a < a + (m + 1) := by omega
    rw [Finset.sum_eq_sum_Ico_succ_bot hlt]
    have : a + 1 + m = a + (m + 1) := by omega
    rw [this]
    ring

theorem compute_eq_sum (xmin xmax ymin ymax : ℝ) (zmin zmax : ℕ) :
    compute_total_tiles_wgs84 xmin xmax ymin ymax zmin zmax =
      ∑ z ∈ Finset.Icc zmin zmax, tilesForZoom xmin xmax ymin ymax z := by
  unfold compute_total_tiles_wgs84
  rw [foldl_add_range', zero_add]
  by_cases h : zmin ≤ zmax + 1
  · rw [show zmin + (zmax + 1 - zmin) = zmax + 1 by omega, Nat.Ico_succ_right]
  · rw [show zmin + (zmax + 1 - zmin) = zmin by omega, Finset.Ico_self,
      Finset.Icc_eq_empty (by omega)]

/-- C7: the tile estimator equals the specified sum over the zoom range of
column-range times row-range, with the stated column and Mercator row
floors, north bound giving the minimum row and south bound the maximum. -/
theorem compute_total_tiles_eq_spec (xmin xmax ymin ymax : ℝ) (zmin zmax : ℕ) :
    compute_total_tiles_wgs84 xmin xmax ymin ymax zmin zmax =
      EstimateTileCountSpec xmin xmax ymin ymax zmin zmax := by
  rw [compute_eq_sum]
  rfl

/-! ### Monotonicity of the estimator (C8) -/

theorem deg_to_rad_mem {a : ℝ} (h1 : -90 < a) (h2 : a < 90) :
    a * Real.pi / 180 ∈ Set.Ioo (-(Real.pi / 2)) (Real.pi / 2) := by
  have hp : (0 : ℝ) < Real.pi / 180 := by positivity
  constructor
  · calc -(Real.pi / 2) = (-90) * (Real.pi / 180) := by ring
    _ < a * (Real.pi / 180) := by
        exact mul_lt_mul_of_pos_right h1 hp
    _ = a * Real.pi / 180 := by ring
  · calc a * Real.pi / 180 = a * (Real.pi / 180) := by ring
    _ < 90 * (Real.pi / 180) := mul_lt_mul_of_pos_right h2 hp
    _ = Real.pi / 2 := by ring

/-- Monotonicity of `(sin + 1) / cos` on the open Mercator interval. -/
theorem sinp_cos_mono {a b : ℝ} (ha : a ∈ Set.Ioo (-(Real.pi / 2)) (Real.pi / 2))
    (hb : b ∈ Set.Ioo (-(Real.pi / 2)) (Real.pi / 2)) (hab : a ≤ b) :
    (Real.sin a + 1) / Real.cos a ≤ (Real.sin b + 1) / Real.cos b := by
  obtain ⟨ha1, ha2⟩ := ha
  obtain ⟨hb1, hb2⟩ := hb
  have hpi := Real.pi_pos
  have hca : 0 < Real.cos a := Real.cos_pos_of_mem_Ioo ⟨ha1, ha2⟩
  have hcb : 0 < Real.cos b := Real.cos_pos_of_mem_Ioo ⟨hb1, hb2⟩
  rw [div_le_div_iff₀ hca hcb]
  have h1 : Real.sin (b - a) = Real.sin b * Real.cos a - Real.cos b * Real.sin a :=
    Real.sin_sub b a
  have h2 : Real.cos a - Real.cos b =
      2 * Real.sin ((a + b) / 2) * Real.sin ((b - a) / 2) := by
    rw [Real.cos_sub_cos, show (a - b) / 2 = -((b - a) / 2) by ring, Real.sin_neg]
    ring
  have h3 : Real.sin (b - a) =
      2 * Real.sin ((b - a) / 2) * Real.cos ((b - a) / 2) := by
    conv_lhs => rw [show b - a = 2 * ((b - a) / 2) by ring]
    rw [Real.sin_two_mul]
  have h4 : 0 ≤ Real.sin ((b - a) / 2) := by
    apply Real.sin_nonneg_of_nonneg_of_le_pi
    · linarith
    · linarith
  have h5 : 0 ≤ Real.cos ((b - a) / 2) + Real.sin ((a + b) / 2) := by
    rcases le_or_lt 0 (Real.sin ((a + b) / 2)) with hs | hs
    · have hc : 0 ≤ Real.cos ((b - a) / 2) :=
        Real.cos_nonneg_of_mem_Icc ⟨by linarith, by linarith⟩
      linarith
    · have hc : Real.cos ((b - a) / 2) = Real.sin (Real.pi / 2 - (b - a) / 2) :=
        (Real.sin_pi_div_two_sub _).symm
      have hmono :
          Real.sin (-((a + b) / 2)) ≤ Real.sin (Real.pi / 2 - (b - a) / 2) := by
        apply Real.strictMonoOn_sin.monotoneOn
        · constructor <;> [linarith; linarith]
        · constructor <;> [linarith; linarith]
        · linarith
      rw [Real.sin_neg] at hmono
      rw [hc]
      linarith
  have key : Real.sin b * Real.cos a - Real.cos b * Real.sin a +
      (Real.cos a - Real.cos b) =
      2 * (Real.sin ((b - a) / 2) *
        (Real.cos ((b - a) / 2) + Real.sin ((a + b) / 2))) := by
    rw [← h1, h3, h2]
    ring
  nlinarith [mul_nonneg h4 h5, key]

theorem sin_add_one_pos {a : ℝ}
    (ha : a ∈ Set.Ioo (-(Real.pi / 2)) (Real.pi / 2)) : 0 < Real.sin a + 1 := by
  obtain ⟨ha1, ha2⟩ := ha
  have hpi := Real.pi_pos
  have h : Real.sin (-(Real.pi / 2)) < Real.sin a := by
    apply Real.strictMonoOn_sin
    · constructor <;> linarith
    · constructor <;> linarith
    · exact ha1
  rw [Real.sin_neg, Real.sin_pi_div_two] at h
  linarith

theorem tan_add_sec (a : ℝ) :
    Real.tan a + 1 / Real.cos a = (Real.sin a + 1) / Real.cos a := by
  rw [Real.tan_eq_sin_div_cos, div_add_div_same]

/-- The Mercator row transform is antitone in the latitude: a more
northern bound gives a smaller (or equal) row index. -/
theorem lat_to_tile_y_antitone {a b : ℝ} (ha : -90 < a) (hb : b < 90)
    (hab : a ≤ b) (z : ℕ) : lat_to_tile_y b z ≤ lat_to_tile_y a z := by
  unfold lat_to_tile_y
  set A := a * Real.pi / 180 with hAdef
  set B := b * Real.pi / 180 with hBdef
  have hA : A ∈ Set.Ioo (-(Real.pi / 2)) (Real.pi / 2) :=
    deg_to_rad_mem ha (lt_of_le_of_lt hab hb)
  have hB : B ∈ Set.Ioo (-(Real.pi / 2)) (Real.pi / 2) :=
    deg_to_rad_mem (lt_of_lt_of_le ha hab) hb
  have hAB : A ≤ B := by
    rw [hAdef, hBdef]
    have hp : (0 : ℝ) ≤ Real.pi := Real.pi_pos.le
    have := mul_le_mul_of_nonneg_right hab hp
    linarith
  have hm := sinp_cos_mono hA hB hAB
  have hposA : 0 < (Real.sin A + 1) / Real.cos A :=
    div_pos (sin_add_one_pos hA) (Real.cos_pos_of_mem_Ioo hA)
  have hlog : Real.log ((Real.sin A + 1) / Real.cos A) ≤
      Real.log ((Real.sin B + 1) / Real.cos B) := Real.log_le_log hposA hm
  apply Int.floor_le_floor
  rw [tan_add_sec A, tan_add_sec B]
  have h2z : (0 : ℝ) ≤ 2 ^ z := by positivity
  apply mul_le_mul_of_nonneg_right _ h2z
  have hpi := Real.pi_pos
  have hdiv : Real.log ((Real.sin A + 1) / Real.cos A) / Real.pi ≤
      Real.log ((Real.sin B + 1) / Real.cos B) / Real.pi :=
    (div_le_div_iff_of_pos_right hpi).mpr hlog
  linarith

theorem tileCol_mono {x y : ℝ} (h : x ≤ y) (z : ℕ) :
    ⌊(x + 180) / 360 * 2 ^ z⌋ ≤ ⌊(y + 180) / 360 * 2 ^ z⌋ := by
  apply Int.floor_le_floor
  have h2z : (0 : ℝ) ≤ 2 ^ z := by positivity
  apply mul_le_mul_of_nonneg_right _ h2z
  linarith

/-- C8: for a well-ordered box inside the Mercator latitude limits the
estimate is monotone: it does not decrease when `zoomMax` grows or when
the box widens on any side. -/
theorem compute_total_tiles_monotone
    (xmin xmax ymin ymax xmin' xmax' ymin' ymax' : ℝ) (zmin zmax zmax' : ℕ)
    (hx : xmin ≤ xmax) (hy : ymin ≤ ymax)
    (hymin : -90 < ymin) (hymax : ymax < 90)
    (hx1 : xmin' ≤ xmin) (hx2 : xmax ≤ xmax')
    (hy1 : ymin' ≤ ymin) (hy2 : ymax ≤ ymax')
    (hymin' : -90 < ymin') (hymax' : ymax' < 90)
    (hz : zmax ≤ zmax') :
    compute_total_tiles_wgs84 xmin xmax ymin ymax zmin zmax ≤
      compute_total_tiles_wgs84 xmin' xmax' ymin' ymax' zmin zmax' := by
  rw [compute_eq_sum, compute_eq_sum]
  have hterm : ∀ z : ℕ, tilesForZoom xmin xmax ymin ymax z ≤
      tilesForZoom xmin' xmax' ymin' ymax' z := by
    intro z
    unfold tilesForZoom
    have hc0 := tileCol_mono hx z
    have hcl := tileCol_mono hx1 z
    have hcr := tileCol_mono hx2 z
    have hr0 := lat_to_tile_y_antitone hymin hymax hy z
    have hrl := lat_to_tile_y_antitone hymin' (by linarith) hy1 z
    have hru := lat_to_tile_y_antitone (by linarith) hymax' hy2 z
    apply mul_le_mul
    · omega
    · omega
    · omega
    · omega
  calc (∑ z ∈ Finset.Icc zmin zmax, tilesForZoom xmin xmax ymin ymax z)
      ≤ ∑ z ∈ Finset.Icc zmin zmax, tilesForZoom xmin' xmax' ymin' ymax' z :=
        Finset.sum_le_sum (fun z _ => hterm z)
    _ ≤ ∑ z ∈ Finset.Icc zmin zmax', tilesForZoom xmin' xmax' ymin' ymax' z := by
        apply Finset.sum_le_sum_of_subset_of_nonneg
        · exact Finset.Icc_subset_Icc_right (by omega)
        · intro z hz1 hz2
          have hc := tileCol_mono (show xmin' ≤ xmax' by linarith) z
          have hr := lat_to_tile_y_antitone hymin' hymax'
            (show ymin' ≤ ymax' by linarith) z
          unfold tilesForZoom
          apply mul_nonneg <;> omega

theorem compute_total_tiles_monotone_witness :
    compute_total_tiles_wgs84 0 1 0 1 1 1 ≤ compute_total_tiles_wgs84 0 2 0 1 1 2 :=
  compute_total_tiles_monotone 0 1 0 1 0 2 0 1 1 1 2
    (by norm_num) (by norm_num) (by norm_num) (by norm_num) (by norm_num)
    (by norm_num) (by norm_num) (by norm_num) (by norm_num) (by norm_num)
    (by norm_num)

/-! ## Coordinator protocol (C5)

Workers interact with the ledger only through `claim_next_job` and
`mark_job_done`; between a successful claim and the corresponding mark a
worker holds the returned path (`geojson_file`).  `CoordStep` is one
atomic (lock-protected) ledger operation by any worker; `inflight` is the
multiset of claimed-but-not-yet-marked paths across all workers. -/

structure CoordState where
  ledger : Ledger
  inflight : List String

inductive CoordStep (folder : String) : CoordState → CoordState → Prop where
  | claim (s : CoordState) (l : Ledger) (p : String)
      (h : claim_next_job folder s.ledger = (l, some p)) :
      CoordStep folder s ⟨l, p :: s.inflight⟩
  | claimNone (s : CoordState) (l : Ledger)
      (h : claim_next_job folder s.ledger = (l, none)) :
      CoordStep folder s ⟨l, s.inflight⟩
  | mark (s : CoordState) (p : String) (h : p ∈ s.inflight) :
      CoordStep folder s ⟨mark_job_done s.ledger p, s.inflight.erase p⟩

/-- Start of a run: the ledger freshly written by `build_job_list`, no
job claimed yet. -/
def initState (files : List String) : CoordState := ⟨build_job_list files, []⟩

/-- The basenames discovered by `glob("*.geojson")`: distinct, non-empty,
slash-free. -/
def WellFormedFiles (files : List String) : Prop :=
  files.Nodup ∧ ∀ fn ∈ files, fn ≠ "" ∧ '/' ∉ fn.data

/-- Protocol invariant: ledger filenames are distinct, clean path
components, and every in-flight path is the join of a ledger filename
whose entry is `IN_PROGRESS` (or already `DONE`, when the same basename
was marked by a duplicate in-flight path). -/
def CoordInv (folder : String) (s : CoordState) : Prop :=
  (s.ledger.map Prod.fst).Nodup ∧
    (∀ e ∈ s.ledger, e.1 ≠ "" ∧ '/' ∉ e.1.data) ∧
    ∀ p ∈ s.inflight, ∃ fn st, p = pathJoin folder fn ∧ (fn, st) ∈ s.ledger ∧
      (st = JOB_STATUS_IN_PROGRESS ∨ st = JOB_STATUS_DONE)

theorem statusOf_cons (k v fn : String) (l : Ledger) :
    statusOf fn ((k, v) :: l) = if k = fn then some v else statusOf fn l := rfl

theorem statusOf_replace (pre post : Ledger) (a x y fn st st' : String)
    (h1 : statusOf fn (pre ++ (a, x) :: post) = some st)
    (h2 : statusOf fn (pre ++ (a, y) :: post) = some st') :
    st' = st ∨ (fn = a ∧ st = x ∧ st' = y) := by
  induction pre with
  | nil =>
    rw [List.nil_append, statusOf_cons] at h1 h2
    by_cases hfa : a = fn
    · rw [if_pos hfa] at h1 h2
      exact Or.inr ⟨hfa.symm, (Option.some.inj h1).symm, (Option.some.inj h2).symm⟩
    · rw [if_neg hfa] at h1 h2
      exact Or.inl (Option.some.inj (h1.symm.trans h2)).symm
  | cons e rest ih =>
    obtain ⟨k, v⟩ := e
    rw [List.cons_append, statusOf_cons] at h1 h2
    by_cases hk : k = fn
    · rw [if_pos hk] at h1 h2
      exact Or.inl (Option.some.inj (h1.symm.trans h2)).symm
    · rw [if_neg hk] at h1 h2
      exact ih h1 h2

theorem statusOf_mark_eq (l : Ledger) (p fn : String) :
    statusOf fn (mark_job_done l p) =
      (statusOf fn l).map
        (fun v => if fn = basename p then JOB_STATUS_DONE else v) := by
  induction l with
  | nil => rfl
  | cons e rest ih =>
    obtain ⟨k, v⟩ := e
    show statusOf fn ((if k = basename p then (k, JOB_STATUS_DONE) else (k, v))
          :: mark_job_done rest p) = _
    by_cases hk : k = basename p
    · rw [if_pos hk, statusOf_cons, statusOf_cons]
      by_cases hf : k = fn
      · rw [if_pos hf, if_pos hf]
        have : fn = basename p := hf ▸ hk
        simp [this]
      · rw [if_neg hf, if_neg hf]
        exact ih
    · rw [if_neg hk, statusOf_cons, statusOf_cons]
      by_cases hf : k = fn
      · rw [if_pos hf, if_pos hf]
        have : fn ≠ basename p := fun h => hk (hf.trans h)
        simp [this]
      · rw [if_neg hf, if_neg hf]
        exact ih

theorem statusOf_eq_of_mem_nodup (l : Ledger) (a v : String)
    (hnd : (l.map Prod.fst).Nodup) (hmem : (a, v) ∈ l) :
    statusOf a l = some v := by
  induction l with
  | nil => simp at hmem
  | cons e rest ih =>
    obtain ⟨k, w⟩ := e
    simp only [List.map_cons, List.nodup_cons] at hnd
    rw [statusOf_cons]
    rcases List.mem_cons.mp hmem with h | h
    · cases h
      rw [if_pos rfl]
    · by_cases hk : k = a
      · exact absurd (hk ▸ List.mem_map_of_mem Prod.fst h) hnd.1
      · rw [if_neg hk]
        exact ih hnd.2 h

theorem mark_job_done_names (l : Ledger) (p : String) :
    (mark_job_done l p).map Prod.fst = l.map Prod.fst := by
  unfold mark_job_done
  rw [List.map_map]
  apply List.map_congr_left
  intro e he
  by_cases hk : e.1 = basename p <;> simp [hk]

theorem claim_next_job_some (folder : String) (ledger l : Ledger) (p : String)
    (h : claim_next_job folder ledger = (l, some p)) :
    ∃ pre fn post, fn ≠ "" ∧ p = pathJoin folder fn ∧
      ledger = pre ++ (fn, JOB_STATUS_PENDING) :: post ∧
      l = pre ++ (fn, JOB_STATUS_IN_PROGRESS) :: post := by
  rcases claimNext_cases ledger with ⟨hrec, -⟩ | ⟨pre, fn, post, hsplit, -, hrec⟩
  · unfold claim_next_job at h
    rw [hrec] at h
    simp at h
  · unfold claim_next_job at h
    rw [hrec] at h
    dsimp only at h
    injection h with h1 h2
    by_cases hfn : fn = ""
    · rw [if_pos hfn] at h2
      exact absurd h2 (by simp)
    · rw [if_neg hfn] at h2
      exact ⟨pre, fn, post, hfn, (Option.some.inj h2).symm, hsplit, h1.symm⟩

theorem claim_next_job_none (folder : String) (ledger l : Ledger)
    (hclean : ∀ e ∈ ledger, e.1 ≠ "")
    (h : claim_next_job folder ledger = (l, none)) : l = ledger := by
  rcases claimNext_cases ledger with ⟨hrec, -⟩ | ⟨pre, fn, post, hsplit, -, hrec⟩
  · unfold claim_next_job at h
    rw [hrec] at h
    dsimp only at h
    injection h with h1 h2
    exact h1.symm
  · unfold claim_next_job at h
    rw [hrec] at h
    dsimp only at h
    injection h with h1 h2
    have hfn : fn ≠ "" := hclean (fn, JOB_STATUS_PENDING) (by rw [hsplit]; simp)
    rw [if_neg hfn] at h2
    exact absurd h2 (by simp)

theorem mem_mark_of_mem (l : Ledger) (p fn st : String)
    (h : (fn, st) ∈ l) :
    (fn, if fn = basename p then JOB_STATUS_DONE else st) ∈ mark_job_done l p := by
  unfold mark_job_done
  have hm := List.mem_map_of_mem
    (fun e : LedgerEntry => if e.1 = basename p then (e.1, JOB_STATUS_DONE) else e) h
  by_cases hb : fn = basename p <;> simp only [hb, if_true, if_false] at hm ⊢ <;>
    simpa [hb] using hm

theorem CoordInv_init (folder : String) (files : List String)
    (hwf : WellFormedFiles files) : CoordInv folder (initState files) := by
  obtain ⟨hnd, hclean⟩ := hwf
  refine ⟨?_, ?_, ?_⟩
  · show ((files.map (fun fn => (fn, JOB_STATUS_PENDING))).map Prod.fst).Nodup
    rw [List.map_map]
    have hcomp : (Prod.fst ∘ fun fn : String => (fn, JOB_STATUS_PENDING)) = id := rfl
    rw [hcomp, List.map_id]
    exact hnd
  · intro e he
    obtain ⟨fn, hfn, heq⟩ := List.mem_map.mp he
    rw [← heq]
    exact hclean fn hfn
  · intro p hp
    simp [initState] at hp

theorem CoordInv_step (folder : String) (s s' : CoordState)
    (hinv : CoordInv folder s) (hstep : CoordStep folder s s') :
    CoordInv folder s' := by
  obtain ⟨hnd, hclean, hinf⟩ := hinv
  cases hstep with
  | claim l p hcl =>
    obtain ⟨pre, fn, post, hfn, hp, hsplit, hl⟩ :=
      claim_next_job_some folder s.ledger l p hcl
    subst hl
    refine ⟨?_, ?_, ?_⟩
    · show ((pre ++ (fn, JOB_STATUS_IN_PROGRESS) :: post).map Prod.fst).Nodup
      have heq : ((pre ++ (fn, JOB_STATUS_IN_PROGRESS) :: post).map Prod.fst)
          = ((pre ++ (fn, JOB_STATUS_PENDING) :: post).map Prod.fst) := by simp
      rw [heq, ← hsplit]
      exact hnd
    · intro e he
      rcases List.mem_append.mp he with h1 | h1
      · exact hclean e (hsplit ▸ List.mem_append_left _ h1)
      · rcases List.mem_cons.mp h1 with h2 | h2
        · have hmemP : (fn, JOB_STATUS_PENDING) ∈ s.ledger := by
            rw [hsplit]
            exact List.mem_append_right _ (List.mem_cons_self _ _)
          cases h2
          exact hclean (fn, JOB_STATUS_PENDING) hmemP
        · exact hclean e
            (hsplit ▸ List.mem_append_right _ (List.mem_cons_of_mem _ h2))
    · intro q hq
      rcases List.mem_cons.mp hq with h1 | h1
      · exact ⟨fn, JOB_STATUS_IN_PROGRESS, h1.trans hp,
          List.mem_append_right _ (List.mem_cons_self _ _), Or.inl rfl⟩
      · obtain ⟨fn', st', hq', hmem', hst'⟩ := hinf q h1
        refine ⟨fn', st', hq', ?_, hst'⟩
        rw [hsplit] at hmem'
        rcases List.mem_append.mp hmem' with hm | hm
        · exact List.mem_append_left _ hm
        · rcases List.mem_cons.mp hm with hm2 | hm2
          · exfalso
            have hstP : st' = JOB_STATUS_PENDING := by
              injection hm2 with hm3 hm4
            rcases hst' with hcon | hcon <;>
              · rw [hstP] at hcon
                exact absurd hcon (by decide)
          · exact List.mem_append_right _ (List.mem_cons_of_mem _ hm2)
  | claimNone l hcl =>
    have hl : l = s.ledger :=
      claim_next_job_none folder s.ledger l (fun e he => (hclean e he).1) hcl
    subst hl
    exact ⟨hnd, hclean, hinf⟩
  | mark p hpin =>
    refine ⟨?_, ?_, ?_⟩
    · show ((mark_job_done s.ledger p).map Prod.fst).Nodup
      rw [mark_job_done_names]
      exact hnd
    · intro e he
      unfold mark_job_done at he
      obtain ⟨e0, he0, heq⟩ := List.mem_map.mp he
      have h1 := hclean e0 he0
      by_cases hk : e0.1 = basename p
      · rw [if_pos hk] at heq
        rw [← heq]
        exact h1
      · rw [if_neg hk] at heq
        rw [← heq]
        exact h1
    · intro q hq
      have hq' : q ∈ s.inflight := List.mem_of_mem_erase hq
      obtain ⟨fn', st', hqj, hmem', hst'⟩ := hinf q hq'
      refine ⟨fn', if fn' = basename p then JOB_STATUS_DONE else st', hqj,
        mem_mark_of_mem s.ledger p fn' st' hmem', ?_⟩
      by_cases hb : fn' = basename p
      · rw [if_pos hb]
        exact Or.inr rfl
      · rw [if_neg hb]
        exact hst'

theorem CoordInv_reachable (folder : String) (files : List String)
    (hwf : WellFormedFiles files) (s : CoordState)
    (hreach : Relation.ReflTransGen (CoordStep folder) (initState files) s) :
    CoordInv folder s := by
  induction hreach with
  | refl => exact CoordInv_init folder files hwf
  | tail hsteps hstep ih => exact CoordInv_step folder _ _ ih hstep

/-- C5: along any run of the coordinator protocol from a freshly built job
list, a single ledger operation either leaves an entry's status unchanged
or performs `PENDING → IN_PROGRESS` (a claim) or `IN_PROGRESS → DONE`
(a mark); no `IN_PROGRESS → PENDING` rollback and no direct
`PENDING → DONE` transition occurs. -/
theorem coordinator_status_transitions (folder : String) (files : List String)
    (hwf : WellFormedFiles files) (s s' : CoordState)
    (hreach : Relation.ReflTransGen (CoordStep folder) (initState files) s)
    (hstep : CoordStep folder s s')
    (fn st st' : String)
    (h1 : statusOf fn s.ledger = some st)
    (h2 : statusOf fn s'.ledger = some st') :
    st' = st ∨ (st = JOB_STATUS_PENDING ∧ st' = JOB_STATUS_IN_PROGRESS) ∨
      (st = JOB_STATUS_IN_PROGRESS ∧ st' = JOB_STATUS_DONE) := by
  obtain ⟨hnd, hclean, hinf⟩ := CoordInv_reachable folder files hwf s hreach
  cases hstep with
  | claim l p hcl =>
    obtain ⟨pre, fn0, post, hfn0, hp, hsplit, hl⟩ :=
      claim_next_job_some folder s.ledger l p hcl
    rw [hsplit] at h1
    dsimp only at h2
    rw [hl] at h2
    rcases statusOf_replace _ _ _ _ _ _ _ _ h1 h2 with he | ⟨-, he1, he2⟩
    · exact Or.inl he
    · exact Or.inr (Or.inl ⟨he1, he2⟩)
  | claimNone l hcl =>
    have hl : l = s.ledger :=
      claim_next_job_none folder s.ledger l (fun e he => (hclean e he).1) hcl
    dsimp only at h2
    rw [hl] at h2
    exact Or.inl (Option.some.inj (h2.symm.trans h1))
  | mark p hpin =>
    dsimp only at h2
    rw [statusOf_mark_eq, h1] at h2
    by_cases hb : fn = basename p
    · rw [show Option.map (fun v => if fn = basename p then JOB_STATUS_DONE else v)
          (some st) = some (if fn = basename p then JOB_STATUS_DONE else st)
          from rfl, if_pos hb] at h2
      have hst' : st' = JOB_STATUS_DONE := (Option.some.inj h2).symm
      obtain ⟨fn0, st0, hqj, hmem0, hst0⟩ := hinf p hpin
      have hfn0clean := hclean (fn0, st0) hmem0
      have hbn : basename p = fn0 := by
        rw [hqj]
        exact basename_pathJoin folder fn0 hfn0clean.2
      have hstat : statusOf fn s.ledger = some st0 := by
        rw [hb.trans hbn]
        exact statusOf_eq_of_mem_nodup _ _ _ hnd hmem0
      have hst_eq : st = st0 := Option.some.inj (h1.symm.trans hstat)
      rcases hst0 with hc | hc
      · exact Or.inr (Or.inr ⟨hst_eq.trans hc, hst'⟩)
      · exact Or.inl (hst'.trans (hst_eq.trans hc).symm)
    · rw [show Option.map (fun v => if fn = basename p then JOB_STATUS_DONE else v)
          (some st) = some (if fn = basename p then JOB_STATUS_DONE else st)
          from rfl, if_neg hb] at h2
      exact Or.inl (Option.some.inj h2).symm

theorem coordinator_status_transitions_witness :
    JOB_STATUS_IN_PROGRESS = JOB_STATUS_PENDING ∨
      (JOB_STATUS_PENDING = JOB_STATUS_PENDING ∧
        JOB_STATUS_IN_PROGRESS = JOB_STATUS_IN_PROGRESS) ∨
      (JOB_STATUS_PENDING = JOB_STATUS_IN_PROGRESS ∧
        JOB_STATUS_IN_PROGRESS = JOB_STATUS_DONE) :=
  coordinator_status_transitions "F" ["a.geojson"] ⟨by decide, by decide⟩
    (initState ["a.geojson"])
    ⟨[("a.geojson", JOB_STATUS_IN_PROGRESS)], ["F/a.geojson"]⟩
    Relation.ReflTransGen.refl
    (CoordStep.claim _ [("a.geojson", JOB_STATUS_IN_PROGRESS)] "F/a.geojson"
      (by decide))
    "a.geojson" JOB_STATUS_PENDING JOB_STATUS_IN_PROGRESS (by decide) (by decide)
